import Mathlib

/-
Verification of the fragment-size-distribution (FSD) model module
(proto/chimera/sources/fsd.py): the parameter codec (encode/decode) of
FSDModelGPLVM and FSDModelGPLVMRestricted, the SortByComponentWeights
transform and its intermediates cache, the canonicalization utility
get_sorted_fsd_xi, and the initialization helper generate_fsd_init_params.

Tensors are modelled as lists of real numbers (one batch row; the codec is
a pure function of fixed dimension, independent of batch size).  Floating
point is modelled by exact real arithmetic; float-specific clamps in
torch's StickBreakingTransform (a clamp of the stick suffix at the
smallest positive float, and the clipped sigmoid) are identity on the
valid real inputs considered here and are omitted.
-/

noncomputable section

namespace FSD

/-- Logistic sigmoid, as used by torch's StickBreakingTransform
(`_clipped_sigmoid` minus the float-underflow clip). -/
def sigmoid (t : ℝ) : ℝ := 1 / (1 + Real.exp (-t))

/-- Forward stick-breaking map of torch's `StickBreakingTransform._call`:
an unconstrained vector of length K-1 is mapped to a point of the
K-simplex.  At each position the remaining suffix length plays the role of
the `offset` tensor `[K-1, K-2, ..., 1]` of the source. -/
def stickForward : List ℝ → List ℝ
  | [] => [1]
  | x :: xs =>
    let z := sigmoid (x - Real.log ((x :: xs).length : ℝ))
    z :: (stickForward xs).map (fun a => a * (1 - z))

/-- Inverse stick-breaking map of torch's `StickBreakingTransform._inverse`,
with `c` the running prefix sum of the consumed simplex coordinates, so
that `1 - (c + y)` is the source's `sf = 1 - y_crop.cumsum(-1)` entry. -/
def stickInvAux (c : ℝ) : List ℝ → List ℝ
  | [] => []
  | [_] => []
  | y :: ys =>
    (Real.log y - Real.log (1 - (c + y)) + Real.log (ys.length : ℝ))
      :: stickInvAux (c + y) ys

/-- Inverse stick-breaking map (`stick.inv` in the source). -/
def stickInv (y : List ℝ) : List ℝ := stickInvAux 0 y

lemma sigmoid_pos (t : ℝ) : 0 < sigmoid t := by
  have h := Real.exp_pos (-t)
  unfold sigmoid
  positivity

lemma sigmoid_lt_one (t : ℝ) : sigmoid t < 1 := by
  have h := Real.exp_pos (-t)
  rw [sigmoid, div_lt_one (by linarith)]
  linarith

lemma sigmoid_log (t : ℝ) (h : 0 < t) : sigmoid (Real.log t) = t / (1 + t) := by
  have ht : t ≠ 0 := ne_of_gt h
  have h1 : (0:ℝ) < 1 + t := by linarith
  have h2 : (0:ℝ) < 1 + t⁻¹ := by positivity
  rw [sigmoid, Real.exp_neg, Real.exp_log h, div_eq_div_iff (ne_of_gt h2) (ne_of_gt h1)]
  field_simp
  ring

lemma stickForward_length (l : List ℝ) : (stickForward l).length = l.length + 1 := by
  induction l with
  | nil => rfl
  | cons x xs ih => simp [stickForward, ih]

lemma stickForward_pos (l : List ℝ) : ∀ a ∈ stickForward l, 0 < a := by
  induction l with
  | nil => intro a ha; simp [stickForward] at ha; simp [ha]
  | cons x xs ih =>
    intro a ha
    simp only [stickForward, List.mem_cons, List.mem_map] at ha
    rcases ha with h1 | ⟨b, hb, h2⟩
    · rw [h1]; exact sigmoid_pos _
    · rw [← h2]
      have hb1 := ih b hb
      have hlt := sigmoid_lt_one (x - Real.log ((x :: xs).length : ℝ))
      have hz : 0 < 1 - sigmoid (x - Real.log ((x :: xs).length : ℝ)) := by linarith
      positivity

lemma sum_map_mul_right (l : List ℝ) (c : ℝ) :
    (l.map (fun a => a * c)).sum = l.sum * c := by
  induction l with
  | nil => simp
  | cons x xs ih => simp [ih]; ring

lemma stickForward_sum (l : List ℝ) : (stickForward l).sum = 1 := by
  induction l with
  | nil => simp [stickForward]
  | cons x xs ih =>
    simp only [stickForward, List.sum_cons, sum_map_mul_right, ih]
    ring

lemma stickInvAux_length (c : ℝ) (l : List ℝ) :
    (stickInvAux c l).length = l.length - 1 := by
  induction l generalizing c with
  | nil => rfl
  | cons y ys ih =>
    cases ys with
    | nil => rfl
    | cons y2 ys2 => simp [stickInvAux, ih]

/-- Round trip of the stick-breaking maps: decoding the encoding of a
strictly positive vector with prefix deficit `c` (so that `c + l.sum = 1`)
recovers the vector up to global normalization by its sum. -/
lemma stickForward_stickInvAux (l : List ℝ) :
    ∀ c : ℝ, l ≠ [] → (∀ a ∈ l, 0 < a) → c + l.sum = 1 →
      stickForward (stickInvAux c l) = l.map (fun a => a / l.sum) := by
  induction l with
  | nil => intro c h; exact absurd rfl h
  | cons y ys ih =>
    intro c _ hpos hsum
    have hy : 0 < y := hpos y (List.mem_cons_self y ys)
    cases ys with
    | nil =>
      simp only [List.sum_cons, List.sum_nil, add_zero] at hsum
      simp [stickInvAux, stickForward, div_self (ne_of_gt hy)]
    | cons y2 ys2 =>
      have hpos' : ∀ a ∈ y2 :: ys2, 0 < a := fun a ha => hpos a (List.mem_cons_of_mem y ha)
      have hs : 0 < (y2 :: ys2).sum := List.sum_pos _ hpos' (by simp)
      have hsum' : (c + y) + (y2 :: ys2).sum = 1 := by
        simp only [List.sum_cons] at hsum ⊢
        linarith
      have ihr := ih (c + y) (by simp) hpos' hsum'
      set s : ℝ := (y2 :: ys2).sum with hsdef
      have hsf : 1 - (c + y) = s := by linarith
      have hlenaux : (stickInvAux (c + y) (y2 :: ys2)).length = ys2.length + 1 - 1 :=
        stickInvAux_length _ _
      simp only [stickInvAux]
      simp only [stickForward, List.length_cons, hlenaux]
      have harg :
          Real.log y - Real.log (1 - (c + y)) + Real.log ((ys2.length + 1 : ℕ) : ℝ)
            - Real.log ((ys2.length + 1 - 1 + 1 : ℕ) : ℝ) = Real.log (y / s) := by
        have hnatvalue : (ys2.length + 1 - 1 + 1 : ℕ) = ys2.length + 1 := by omega
        rw [hnatvalue, hsf, Real.log_div (ne_of_gt hy) (ne_of_gt hs)]
        ring
      rw [harg, sigmoid_log (y / s) (by positivity)]
      have hsne : s ≠ 0 := ne_of_gt hs
      have hys : y + s ≠ 0 := by positivity
      have hz : y / s / (1 + y / s) = y / (y + s) := by
        have h1 : 1 + y / s = (s + y) / s := by rw [add_div, div_self hsne]
        rw [h1, div_div_eq_mul_div, div_mul_cancel₀ _ hsne, add_comm s y]
      rw [hz, ihr]
      simp only [List.sum_cons, ← hsdef, List.map_map]
      have htail : List.map ((fun a => a * (1 - y / (y + s))) ∘ fun a => a / s) (y2 :: ys2)
          = List.map (fun a => a / (y + s)) (y2 :: ys2) := by
        apply List.map_congr_left
        intro a _
        simp only [Function.comp_apply]
        field_simp
      conv_rhs => rw [List.map_cons]
      rw [htail, List.map_cons]

/-- Round trip of the stick-breaking maps on the probability simplex:
this is the composition `stick(stick.inv(w))` appearing in
`decode(encode(params))`. -/
lemma stickForward_stickInv (w : List ℝ) (hne : w ≠ [])
    (hpos : ∀ a ∈ w, 0 < a) (hsum : w.sum = 1) :
    stickForward (stickInv w) = w := by
  rw [stickInv, stickForward_stickInvAux w 0 hne hpos (by rw [hsum]; ring), hsum]
  simp

lemma stickInv_length (l : List ℝ) : (stickInv l).length = l.length - 1 :=
  stickInvAux_length 0 l

/-- Mixture parameters (the `fsd_params_dict` of the source), one batch
row: each field is the component list of its branch. -/
@[ext]
structure FSDParams where
  mu_lo : List ℝ
  phi_lo : List ℝ
  w_lo : List ℝ
  mu_hi : List ℝ
  phi_hi : List ℝ
  w_hi : List ℝ

/-- Validity of one mixture branch: component count matches the model
configuration, means and dispersions are strictly positive, and the
weights are a strictly positive point of the probability simplex. -/
structure ValidBranch (n : ℕ) (mu phi w : List ℝ) : Prop where
  len_mu : mu.length = n
  len_phi : phi.length = n
  len_w : w.length = n
  pos_mu : ∀ x ∈ mu, 0 < x
  pos_phi : ∀ x ∈ phi, 0 < x
  pos_w : ∀ x ∈ w, 0 < x
  sum_w : w.sum = 1

/-- Validity of a full MixtureParams value for configured component
counts `nLo` and `nHi`. -/
def ValidParams (nLo nHi : ℕ) (p : FSDParams) : Prop :=
  ValidBranch nLo p.mu_lo p.phi_lo p.w_lo ∧ ValidBranch nHi p.mu_hi p.phi_hi p.w_hi

/-- Encoding of one branch: `[log mu, log phi, stick.inv w]`, the stick
segment present only when the branch has more than one component
(`FSDModelGPLVM.encode`, lines 215-225). -/
def encodeBranch (n : ℕ) (mu phi w : List ℝ) : List ℝ :=
  mu.map Real.log ++ (phi.map Real.log ++ (if 1 < n then stickInv w else []))

/-- Encoder of the full model `FSDModelGPLVM.encode`: hi branch segments
followed by lo branch segments. -/
def encodeFull (nLo nHi : ℕ) (p : FSDParams) : List ℝ :=
  encodeBranch nHi p.mu_hi p.phi_hi p.w_hi ++ encodeBranch nLo p.mu_lo p.phi_lo p.w_lo

/-- Encoder of the restricted model `FSDModelGPLVMRestricted.encode`:
only the hi branch is packed. -/
def encodeRestricted (nHi : ℕ) (p : FSDParams) : List ℝ :=
  encodeBranch nHi p.mu_hi p.phi_hi p.w_hi

/-- Unconstrained dimension of the full model (`FSDModelGPLVM.fsd_xi_dim`,
lines 209-213). -/
def fsdXiDimFull (nLo nHi : ℕ) : ℕ := (3 * nLo - 1) + (3 * nHi - 1)

/-- Unconstrained dimension of the restricted model
(`FSDModelGPLVMRestricted.fsd_xi_dim`, lines 562-565). -/
def fsdXiDimRestricted (nHi : ℕ) : ℕ := 3 * nHi - 1

/-- Caller-supplied gradient-detachment masks (`parents_dict` entries
`inducing_binary_mask_tensor_n` / `non_inducing_binary_mask_tensor_n`),
one batch row, so each mask is a scalar. -/
structure ParentsDict where
  inducingMask : ℝ
  nonInducingMask : ℝ

/-- Modelled from the spec: `get_detached_on_non_inducing_genes` lives in
the `utils` module, which is not part of this repository snapshot.  Per
the spec it stops gradient flow of a scalar parameter on non-inducing
genes using two caller-supplied disjoint binary masks; gradient
detachment is the identity on values, so the value semantics is the
scalar broadcast against the two masks. -/
def getDetachedOnNonInducingGenes (inputScalar mInd mNon : ℝ) : ℝ :=
  inputScalar * mInd + inputScalar * mNon

/-- Decoder body of the full model (`FSDModelGPLVM.decode`, lines
237-274), after the length assertion has passed.  The source advances a
running `offset`; here each slice is written with the cumulated drops.
The stick segment of a branch is skipped with `drop (n - 1)`
unconditionally, which agrees with the source's conditional
`offset += (n - 1)` because `n - 1 = 0` when the branch has a single
component. -/
def decodeFullBody (nLo nHi : ℕ) (xi : List ℝ) : FSDParams where
  mu_hi := (xi.take nHi).map Real.exp
  phi_hi := ((xi.drop nHi).take nHi).map Real.exp
  w_hi :=
    if 1 < nHi then stickForward (((xi.drop nHi).drop nHi).take (nHi - 1))
    else List.replicate nHi 1
  mu_lo := ((((xi.drop nHi).drop nHi).drop (nHi - 1)).take nLo).map Real.exp
  phi_lo := (((((xi.drop nHi).drop nHi).drop (nHi - 1)).drop nLo).take nLo).map Real.exp
  w_lo :=
    if 1 < nLo then
      stickForward ((((((xi.drop nHi).drop nHi).drop (nHi - 1)).drop nLo).drop nLo).take (nLo - 1))
    else List.replicate nLo 1

/-- Decoder of the full model, including the fatal length assertion
`assert fsd_xi_nq.shape[-1] == self.fsd_xi_dim` (lines 232-235); a failed
assertion is `none`.  The `parents` argument mirrors the Python signature;
the full model's body never reads it. -/
def decodeFull (nLo nHi : ℕ) (parents : Option ParentsDict) (xi : List ℝ) :
    Option FSDParams :=
  if xi.length = fsdXiDimFull nLo nHi then some (decodeFullBody nLo nHi xi) else none

/-- Log-sum-exp over a vector, as `torch.logsumexp(..., dim=-1)`. -/
def logsumexp (l : List ℝ) : ℝ := Real.log ((l.map Real.exp).sum)

/-- Coefficient selection of the restricted decode (lines 601-621): with
the detachment flag set and a `parents_dict` supplied, the intercept and
slope are passed through `get_detached_on_non_inducing_genes`; otherwise
they are used directly. -/
def restrictedLinkCoefficients (intercept slope : ℝ) (detach : Bool)
    (parents : Option ParentsDict) : ℝ × ℝ :=
  match detach, parents with
  | true, some pd =>
    (getDetachedOnNonInducingGenes intercept pd.inducingMask pd.nonInducingMask,
     getDetachedOnNonInducingGenes slope pd.inducingMask pd.nonInducingMask)
  | _, _ => (intercept, slope)

lemma restrictedLinkCoefficients_false (intercept slope : ℝ)
    (parents : Option ParentsDict) :
    restrictedLinkCoefficients intercept slope false parents = (intercept, slope) := by
  cases parents with
  | none => rfl
  | some pd => rfl

/-- Decoder body of the restricted model
(`FSDModelGPLVMRestricted.decode`, lines 584-635), after the length
assertion: the hi branch is decoded as in the full model, and the lo
branch is synthesized from the hi branch through the learned log-linear
link; `phi_lo` and `w_lo` are ones like the single-element `mu_lo`. -/
def decodeRestrictedBody (nHi : ℕ) (intercept slope : ℝ) (detach : Bool)
    (parents : Option ParentsDict) (xi : List ℝ) : FSDParams :=
  let log_mu_hi := xi.take nHi
  let w_hi :=
    if 1 < nHi then stickForward (((xi.drop nHi).drop nHi).take (nHi - 1))
    else List.replicate nHi 1
  let coefficients := restrictedLinkCoefficients intercept slope detach parents
  let log_mean_mu_hi :=
    logsumexp (List.zipWith (fun a w => a + Real.log w) log_mu_hi w_hi)
  { mu_lo := [Real.exp (coefficients.1 + coefficients.2 * log_mean_mu_hi)]
    phi_lo := [1]
    w_lo := [1]
    mu_hi := log_mu_hi.map Real.exp
    phi_hi := ((xi.drop nHi).take nHi).map Real.exp
    w_hi := w_hi }

/-- Decoder of the restricted model, including the fatal length assertion
(lines 579-582). -/
def decodeRestricted (nHi : ℕ) (intercept slope : ℝ) (detach : Bool)
    (parents : Option ParentsDict) (xi : List ℝ) : Option FSDParams :=
  if xi.length = fsdXiDimRestricted nHi then
    some (decodeRestrictedBody nHi intercept slope detach parents xi)
  else none

lemma map_exp_map_log (l : List ℝ) (h : ∀ x ∈ l, 0 < x) :
    (l.map Real.log).map Real.exp = l := by
  induction l with
  | nil => rfl
  | cons x xs ih =>
    have hx := h x (List.mem_cons_self x xs)
    have ih2 := ih (fun a ha => h a (List.mem_cons_of_mem x ha))
    simp only [List.map_cons]
    rw [Real.exp_log hx, ih2]

lemma eq_singleton_one (w : List ℝ) (hlen : w.length = 1) (hsum : w.sum = 1) :
    w = [1] := by
  cases w with
  | nil => simp at hlen
  | cons a tl =>
    cases tl with
    | nil =>
      simp only [List.sum_cons, List.sum_nil, add_zero] at hsum
      rw [hsum]
    | cons b tl2 => simp at hlen

lemma encodeBranch_length (n : ℕ) (mu phi w : List ℝ)
    (hmu : mu.length = n) (hphi : phi.length = n) (hw : w.length = n) :
    (encodeBranch n mu phi w).length = 3 * n - 1 := by
  by_cases h : 1 < n
  · simp [encodeBranch, h, stickInv_length, hmu, hphi, hw]
    omega
  · simp [encodeBranch, h, hmu, hphi]
    omega

/-- Decomposition of the decode slices over an encoded branch followed by
arbitrary trailing data: each slice of `decode` recovers the encoded
field, and the remaining suffix is the trailing data. -/
lemma encodeBranch_decomp (n : ℕ) (hn : 1 ≤ n) (mu phi w rest : List ℝ)
    (hb : ValidBranch n mu phi w) :
    ((encodeBranch n mu phi w ++ rest).take n).map Real.exp = mu ∧
    (((encodeBranch n mu phi w ++ rest).drop n).take n).map Real.exp = phi ∧
    (if 1 < n then
        stickForward ((((encodeBranch n mu phi w ++ rest).drop n).drop n).take (n - 1))
      else List.replicate n 1) = w ∧
    (((encodeBranch n mu phi w ++ rest).drop n).drop n).drop (n - 1) = rest := by
  obtain ⟨lmu, lphi, lw, pmu, pphi, pw, sw⟩ := hb
  have hxi : encodeBranch n mu phi w ++ rest
      = mu.map Real.log ++ (phi.map Real.log
          ++ ((if 1 < n then stickInv w else []) ++ rest)) := by
    simp [encodeBranch, List.append_assoc]
  have hlenA : (mu.map Real.log).length = n := by simp [lmu]
  have hlenB : (phi.map Real.log).length = n := by simp [lphi]
  have hdrop1 : (encodeBranch n mu phi w ++ rest).drop n
      = phi.map Real.log ++ ((if 1 < n then stickInv w else []) ++ rest) := by
    rw [hxi, List.drop_left' hlenA]
  have hdrop2 : ((encodeBranch n mu phi w ++ rest).drop n).drop n
      = (if 1 < n then stickInv w else []) ++ rest := by
    rw [hdrop1, List.drop_left' hlenB]
  refine ⟨?_, ?_, ?_, ?_⟩
  · rw [hxi, List.take_left' hlenA, map_exp_map_log mu pmu]
  · rw [hdrop1, List.take_left' hlenB, map_exp_map_log phi pphi]
  · by_cases h : 1 < n
    · have hlenS : (stickInv w).length = n - 1 := by rw [stickInv_length, lw]
      have hwne : w ≠ [] := by
        intro hcon
        rw [hcon] at lw
        simp at lw
        omega
      rw [if_pos h, hdrop2, if_pos h, List.take_left' hlenS]
      exact stickForward_stickInv w hwne pw sw
    · have hn1 : n = 1 := by omega
      rw [if_neg h]
      subst hn1
      exact (eq_singleton_one w lw sw).symm
  · by_cases h : 1 < n
    · have hlenS : (stickInv w).length = n - 1 := by rw [stickInv_length, lw]
      rw [hdrop2, if_pos h, List.drop_left' hlenS]
    · have hn1 : n = 1 := by omega
      subst hn1
      rw [hdrop2]
      simp

lemma encodeFull_length (nLo nHi : ℕ) (p : FSDParams) (hp : ValidParams nLo nHi p) :
    (encodeFull nLo nHi p).length = fsdXiDimFull nLo nHi := by
  obtain ⟨hbLo, hbHi⟩ := hp
  rw [encodeFull, List.length_append,
    encodeBranch_length nHi _ _ _ hbHi.len_mu hbHi.len_phi hbHi.len_w,
    encodeBranch_length nLo _ _ _ hbLo.len_mu hbLo.len_phi hbLo.len_w,
    fsdXiDimFull]
  omega

lemma encodeRestricted_length (nHi : ℕ) (p : FSDParams)
    (hb : ValidBranch nHi p.mu_hi p.phi_hi p.w_hi) :
    (encodeRestricted nHi p).length = fsdXiDimRestricted nHi :=
  encodeBranch_length nHi _ _ _ hb.len_mu hb.len_phi hb.len_w

/-- Round trip of the full codec: decoding an encoded valid MixtureParams
value recovers it exactly, for any `parents_dict`. -/
lemma decodeFull_encodeFull (nLo nHi : ℕ) (hLo : 1 ≤ nLo) (hHi : 1 ≤ nHi)
    (pd : Option ParentsDict) (p : FSDParams) (hp : ValidParams nLo nHi p) :
    decodeFull nLo nHi pd (encodeFull nLo nHi p) = some p := by
  obtain ⟨hbLo, hbHi⟩ := hp
  have hlen : (encodeFull nLo nHi p).length = fsdXiDimFull nLo nHi :=
    encodeFull_length nLo nHi p ⟨hbLo, hbHi⟩
  rw [decodeFull, if_pos hlen]
  have hHiDec := encodeBranch_decomp nHi hHi p.mu_hi p.phi_hi p.w_hi
    (encodeBranch nLo p.mu_lo p.phi_lo p.w_lo) hbHi
  obtain ⟨hmuhi, hphihi, hwhi, hrest⟩ := hHiDec
  have hLoDec := encodeBranch_decomp nLo hLo p.mu_lo p.phi_lo p.w_lo [] hbLo
  rw [List.append_nil] at hLoDec
  obtain ⟨hmulo, hphilo, hwlo, _⟩ := hLoDec
  have hxieq : encodeFull nLo nHi p
      = encodeBranch nHi p.mu_hi p.phi_hi p.w_hi
          ++ encodeBranch nLo p.mu_lo p.phi_lo p.w_lo := rfl
  congr 1
  apply FSDParams.ext
  · rw [decodeFullBody, hxieq, hrest]
    exact hmulo
  · rw [decodeFullBody, hxieq, hrest]
    exact hphilo
  · rw [decodeFullBody, hxieq, hrest]
    exact hwlo
  · rw [decodeFullBody, hxieq]
    exact hmuhi
  · rw [decodeFullBody, hxieq]
    exact hphihi
  · rw [decodeFullBody, hxieq]
    exact hwhi

lemma map_exp_zipWith_add_log (mu : List ℝ) :
    ∀ w : List ℝ, (∀ x ∈ mu, 0 < x) → (∀ x ∈ w, 0 < x) →
      (List.zipWith (fun a b => a + Real.log b) (mu.map Real.log) w).map Real.exp
        = List.zipWith (fun m b => m * b) mu w := by
  induction mu with
  | nil => intro w _ _; simp
  | cons m ms ih =>
    intro w hmu hw
    cases w with
    | nil => simp
    | cons b bs =>
      have hm := hmu m (List.mem_cons_self m ms)
      have hb := hw b (List.mem_cons_self b bs)
      simp only [List.map_cons, List.zipWith_cons_cons]
      rw [Real.exp_add, Real.exp_log hm, Real.exp_log hb,
        ih bs (fun x hx => hmu x (List.mem_cons_of_mem m hx))
          (fun x hx => hw x (List.mem_cons_of_mem b hx))]

/-- Round trip of the restricted codec: decoding an encoded MixtureParams
value with a valid hi branch recovers the hi branch exactly, while the lo
branch is synthesized through the log-linear link, irrespective of the
encoded value's lo fields. -/
lemma decodeRestricted_encodeRestricted (nHi : ℕ) (hHi : 1 ≤ nHi) (i s : ℝ)
    (pd : Option ParentsDict) (p : FSDParams)
    (hb : ValidBranch nHi p.mu_hi p.phi_hi p.w_hi) :
    decodeRestricted nHi i s false pd (encodeRestricted nHi p)
      = some
        { mu_lo := [Real.exp (i + s
            * Real.log ((List.zipWith (fun m b => m * b) p.mu_hi p.w_hi).sum))]
          phi_lo := [1]
          w_lo := [1]
          mu_hi := p.mu_hi
          phi_hi := p.phi_hi
          w_hi := p.w_hi } := by
  have hlen : (encodeRestricted nHi p).length = fsdXiDimRestricted nHi :=
    encodeRestricted_length nHi p hb
  rw [decodeRestricted, if_pos hlen]
  have hER : encodeRestricted nHi p = encodeBranch nHi p.mu_hi p.phi_hi p.w_hi := rfl
  have hDec := encodeBranch_decomp nHi hHi p.mu_hi p.phi_hi p.w_hi [] hb
  rw [List.append_nil, ← hER] at hDec
  obtain ⟨hmu, hphi, hw, _⟩ := hDec
  have htake : (encodeRestricted nHi p).take nHi = p.mu_hi.map Real.log := by
    have hlenA : (p.mu_hi.map Real.log).length = nHi := by simp [hb.len_mu]
    rw [hER, encodeBranch, List.take_left' hlenA]
  congr 1
  rw [decodeRestrictedBody]
  simp only [restrictedLinkCoefficients_false]
  apply FSDParams.ext
  · show [Real.exp _] = [Real.exp _]
    rw [htake, hw, logsumexp,
      map_exp_zipWith_add_log p.mu_hi p.w_hi hb.pos_mu hb.pos_w]
  · rfl
  · rfl
  · show ((encodeRestricted nHi p).take nHi).map Real.exp = p.mu_hi
    exact hmu
  · exact hphi
  · exact hw

lemma pos_map_exp (l : List ℝ) : ∀ x ∈ l.map Real.exp, 0 < x := by
  intro x hx
  obtain ⟨a, _, ha⟩ := List.mem_map.mp hx
  rw [← ha]
  exact Real.exp_pos a

lemma decodeW_valid (n : ℕ) (hn : 1 ≤ n) (l : List ℝ) (hl : n - 1 ≤ l.length) :
    ((if 1 < n then stickForward (l.take (n - 1)) else List.replicate n 1).length = n) ∧
    (∀ x ∈ (if 1 < n then stickForward (l.take (n - 1)) else List.replicate n 1), 0 < x) ∧
    ((if 1 < n then stickForward (l.take (n - 1)) else List.replicate n 1).sum = 1) := by
  by_cases h : 1 < n
  · rw [if_pos h]
    refine ⟨?_, stickForward_pos _, stickForward_sum _⟩
    rw [stickForward_length, List.length_take]
    omega
  · have hn1 : n = 1 := by omega
    subst hn1
    rw [if_neg h]
    refine ⟨by simp, ?_, by simp⟩
    intro x hx
    rw [List.eq_of_mem_replicate hx]
    norm_num

/-- Validity of everything the full decoder produces, for any input of the
correct dimension: the simplex and positivity invariants of section 3 of
the spec. -/
lemma decodeFullBody_valid (nLo nHi : ℕ) (hLo : 1 ≤ nLo) (hHi : 1 ≤ nHi)
    (xi : List ℝ) (hx : xi.length = fsdXiDimFull nLo nHi) :
    ValidParams nLo nHi (decodeFullBody nLo nHi xi) := by
  have hdim : xi.length = (3 * nLo - 1) + (3 * nHi - 1) := hx
  have hWhi := decodeW_valid nHi hHi ((xi.drop nHi).drop nHi)
    (by simp only [List.length_drop]; omega)
  have hWlo := decodeW_valid nLo hLo
    (((((xi.drop nHi).drop nHi).drop (nHi - 1)).drop nLo).drop nLo)
    (by simp only [List.length_drop]; omega)
  constructor
  · exact
      { len_mu := by
          simp only [decodeFullBody, List.length_map, List.length_take, List.length_drop]
          omega
        len_phi := by
          simp only [decodeFullBody, List.length_map, List.length_take, List.length_drop]
          omega
        len_w := hWlo.1
        pos_mu := pos_map_exp _
        pos_phi := pos_map_exp _
        pos_w := hWlo.2.1
        sum_w := hWlo.2.2 }
  · exact
      { len_mu := by
          simp only [decodeFullBody, List.length_map, List.length_take]
          omega
        len_phi := by
          simp only [decodeFullBody, List.length_map, List.length_take, List.length_drop]
          omega
        len_w := hWhi.1
        pos_mu := pos_map_exp _
        pos_phi := pos_map_exp _
        pos_w := hWhi.2.1
        sum_w := hWhi.2.2 }

/-- C5: for every input `xi` whose last dimension equals the model's
`fsd_xi_dim`, the decoded MixtureParams of the full model satisfy: each
branch's weights are non-negative and sum to 1 (here exactly), and every
`mu` and `phi` entry is strictly positive, regardless of the magnitude of
the entries of `xi`. -/
theorem fsd_c5_decode_simplex (nLo nHi : ℕ) (hLo : 1 ≤ nLo) (hHi : 1 ≤ nHi)
    (pd : Option ParentsDict) (xi : List ℝ) (hx : xi.length = fsdXiDimFull nLo nHi) :
    ∃ p, decodeFull nLo nHi pd xi = some p ∧
      (∀ x ∈ p.w_lo, 0 ≤ x) ∧ p.w_lo.sum = 1 ∧
      (∀ x ∈ p.w_hi, 0 ≤ x) ∧ p.w_hi.sum = 1 ∧
      (∀ x ∈ p.mu_lo, 0 < x) ∧ (∀ x ∈ p.phi_lo, 0 < x) ∧
      (∀ x ∈ p.mu_hi, 0 < x) ∧ (∀ x ∈ p.phi_hi, 0 < x) := by
  refine ⟨decodeFullBody nLo nHi xi, by rw [decodeFull, if_pos hx], ?_⟩
  obtain ⟨hbLo, hbHi⟩ := decodeFullBody_valid nLo nHi hLo hHi xi hx
  exact ⟨fun x hx2 => le_of_lt (hbLo.pos_w x hx2), hbLo.sum_w,
    fun x hx2 => le_of_lt (hbHi.pos_w x hx2), hbHi.sum_w,
    hbLo.pos_mu, hbLo.pos_phi, hbHi.pos_mu, hbHi.pos_phi⟩

/-- Jacobian term of `SortByComponentWeights.log_abs_det_jacobian`
(lines 81-82): `torch.zeros_like(x)`. -/
def sortTransformLogAbsDetJacobian (x y : List ℝ) : List ℝ :=
  x.map (fun _ => 0)

/-- C6: for every input `x` and every `y`,
`SortByComponentWeights.log_abs_det_jacobian(x, y)` is the all-zero vector
of the shape of `x`: every entry of the returned value equals 0. -/
theorem fsd_c6_log_abs_det_jacobian_zero (x y : List ℝ) :
    sortTransformLogAbsDetJacobian x y = List.replicate x.length 0 := by
  induction x with
  | nil => rfl
  | cons a tl ih => simp only [sortTransformLogAbsDetJacobian, List.map_cons] at ih ⊢
                    rw [ih]
                    rfl

/-- C7: for every valid MixtureParams input with the configured component
counts, the length of the encoded vector equals the statically computed
dimension: `(3*n_hi - 1) + (3*n_lo - 1)` for the full model and
`3*n_hi - 1` for the restricted model (so n_hi=3, n_lo=2 gives 13). -/
theorem fsd_c7_encode_dim (nLo nHi : ℕ) (p : FSDParams) (hp : ValidParams nLo nHi p) :
    (encodeFull nLo nHi p).length = fsdXiDimFull nLo nHi ∧
    (encodeRestricted nHi p).length = fsdXiDimRestricted nHi :=
  ⟨encodeFull_length nLo nHi p hp, encodeRestricted_length nHi p hp.2⟩

/-- C8: both decoders fail fatally (modelled as `none`), before producing
any parameters, exactly when the last dimension of the supplied
unconstrained vector differs from the model's `fsd_xi_dim`; when it is
equal, the length check passes and a decoded value is produced. -/
theorem fsd_c8_decode_length_check (nLo nHi : ℕ) (i s : ℝ) (detach : Bool)
    (pd : Option ParentsDict) (xi : List ℝ) :
    (xi.length ≠ fsdXiDimFull nLo nHi → decodeFull nLo nHi pd xi = none) ∧
    (xi.length = fsdXiDimFull nLo nHi → ∃ p, decodeFull nLo nHi pd xi = some p) ∧
    (xi.length ≠ fsdXiDimRestricted nHi →
      decodeRestricted nHi i s detach pd xi = none) ∧
    (xi.length = fsdXiDimRestricted nHi →
      ∃ p, decodeRestricted nHi i s detach pd xi = some p) :=
  ⟨fun h => by rw [decodeFull, if_neg h],
   fun h => ⟨_, by rw [decodeFull, if_pos h]⟩,
   fun h => by rw [decodeRestricted, if_neg h],
   fun h => ⟨_, by rw [decodeRestricted, if_pos h]⟩⟩

/-- C10: the full model's decode never reads its `parents_dict` argument:
for every input and any two parents dictionaries (including `none`), the
decoded MixtureParams are identical. -/
theorem fsd_c10_decode_parents_independent (nLo nHi : ℕ) (xi : List ℝ)
    (pd1 pd2 : Option ParentsDict) :
    decodeFull nLo nHi pd1 xi = decodeFull nLo nHi pd2 xi := rfl

lemma logsumexp_singleton (a : ℝ) : logsumexp [a] = a := by
  simp [logsumexp]

/-- Valid MixtureParams witnessing that the restricted codec does not
round-trip the lo-branch fields: `phi_lo = [2]` cannot be recovered, since
the restricted decode always returns `phi_lo = [1]`. -/
def c1CexParams : FSDParams :=
  { mu_lo := [1], phi_lo := [2], w_lo := [1], mu_hi := [1], phi_hi := [1], w_hi := [1] }

lemma mem_singleton_pos (c : ℝ) (hc : 0 < c) : ∀ x ∈ [c], 0 < x := by
  intro x hx
  rw [List.mem_singleton] at hx
  rw [hx]
  exact hc

lemma c1CexParams_valid : ValidParams 1 1 c1CexParams :=
  ⟨{ len_mu := rfl, len_phi := rfl, len_w := rfl
     pos_mu := mem_singleton_pos 1 (by norm_num)
     pos_phi := mem_singleton_pos 2 (by norm_num)
     pos_w := mem_singleton_pos 1 (by norm_num)
     sum_w := by simp [c1CexParams] },
   { len_mu := rfl, len_phi := rfl, len_w := rfl
     pos_mu := mem_singleton_pos 1 (by norm_num)
     pos_phi := mem_singleton_pos 1 (by norm_num)
     pos_w := mem_singleton_pos 1 (by norm_num)
     sum_w := by simp [c1CexParams] }⟩

/-- C1, counterexample: a valid MixtureParams value (strictly positive mu
and phi, simplex weights, single component per branch) on which
`decode(encode(p)) == p` fails for the restricted codec: the decoded
`phi_lo` is `[1]`, not the encoded `[2]`. -/
theorem fsd_c1_counterexample :
    ValidParams 1 1 c1CexParams ∧
    decodeRestricted 1 0 1 false none (encodeRestricted 1 c1CexParams)
      ≠ some c1CexParams := by
  refine ⟨c1CexParams_valid, ?_⟩
  intro h
  rw [decodeRestricted_encodeRestricted 1 le_rfl 0 1 none c1CexParams
    c1CexParams_valid.2] at h
  have h2 := congrArg FSDParams.phi_lo (Option.some.inj h)
  have h3 : (1 : ℝ) = 2 := by
    have h4 : ([1] : List ℝ) = [2] := h2
    exact List.head_eq_of_cons_eq h4
  norm_num at h3

/-- C1 (amended): for every valid MixtureParams `p` (mu, phi strictly
positive; weights strictly positive on the simplex; component counts
matching the configuration), `decode(encode(p)) == p` holds exactly for
the full codec on all fields; for the restricted codec the hi fields
round-trip exactly, while the decoded lo fields are synthesized by the
log-linear link — `mu_lo = [exp(intercept + slope * log(sum w_hi*mu_hi))]`,
`phi_lo = [1]`, `w_lo = [1]` — irrespective of `p`'s lo fields. -/
theorem fsd_c1_roundtrip (nLo nHi : ℕ) (hLo : 1 ≤ nLo) (hHi : 1 ≤ nHi)
    (pd : Option ParentsDict) (i s : ℝ) (p : FSDParams)
    (hp : ValidParams nLo nHi p) :
    decodeFull nLo nHi pd (encodeFull nLo nHi p) = some p ∧
    decodeRestricted nHi i s false pd (encodeRestricted nHi p)
      = some
        { mu_lo := [Real.exp (i + s
            * Real.log ((List.zipWith (fun m b => m * b) p.mu_hi p.w_hi).sum))]
          phi_lo := [1]
          w_lo := [1]
          mu_hi := p.mu_hi
          phi_hi := p.phi_hi
          w_hi := p.w_hi } :=
  ⟨decodeFull_encodeFull nLo nHi hLo hHi pd p hp,
   decodeRestricted_encodeRestricted nHi hHi i s pd p hp.2⟩

/-- C3: in the restricted codec with fixed intercept `i` and slope `s`
and a single-component hi branch with `mu_hi = m` (so `w_hi = 1`), the
decoded `mu_lo` equals `exp(i + s * log m)` exactly; and every decoded
output of the restricted codec has `phi_lo` and `w_lo` equal to 1. -/
theorem fsd_c3_restricted_link (i s m b : ℝ) (hm : 0 < m) :
    (∃ q, decodeRestricted 1 i s false none [Real.log m, b] = some q ∧
       q.mu_hi = [m] ∧ q.w_hi = [1] ∧
       q.mu_lo = [Real.exp (i + s * Real.log m)]) ∧
    (∀ (nHi2 : ℕ) (i2 s2 : ℝ) (detach : Bool) (pd : Option ParentsDict)
       (xi : List ℝ) (q : FSDParams),
       decodeRestricted nHi2 i2 s2 detach pd xi = some q →
         q.phi_lo = [1] ∧ q.w_lo = [1]) := by
  constructor
  · have hg : [Real.log m, b].length = fsdXiDimRestricted 1 := rfl
    have hbody : decodeRestrictedBody 1 i s false none [Real.log m, b]
        = { mu_lo := [Real.exp (i + s * Real.log m)], phi_lo := [1], w_lo := [1],
            mu_hi := [m], phi_hi := [Real.exp b], w_hi := [1] } := by
      simp only [decodeRestrictedBody, restrictedLinkCoefficients_false]
      norm_num [logsumexp, Real.exp_log hm]
    refine ⟨{ mu_lo := [Real.exp (i + s * Real.log m)], phi_lo := [1], w_lo := [1],
              mu_hi := [m], phi_hi := [Real.exp b], w_hi := [1] }, ?_, rfl, rfl, rfl⟩
    rw [decodeRestricted, if_pos hg, hbody]
  · intro nHi2 i2 s2 detach pd xi q h
    rw [decodeRestricted] at h
    by_cases hg : xi.length = fsdXiDimRestricted nHi2
    · rw [if_pos hg] at h
      have h2 := Option.some.inj h
      rw [← h2]
      exact ⟨rfl, rfl⟩
    · rw [if_neg hg] at h
      simp at h

/-- Ordering used by `get_sorted_params_dict` (lines 276-287): component
triples `(w, mu, phi)` are ordered by descending weight.  Per section 4.2
of the spec, ties keep the pre-sort relative order (stable sort), which is
realized below by a stable insertion sort on the triples — semantically
the source's stable `argsort(descending)` followed by `gather` on each
field. -/
def weightDescRel (a b : ℝ × ℝ × ℝ) : Prop := b.1 ≤ a.1

instance : DecidableRel weightDescRel :=
  fun a b => inferInstanceAs (Decidable (b.1 ≤ a.1))

instance : IsTotal (ℝ × ℝ × ℝ) weightDescRel := ⟨fun a b => le_total b.1 a.1⟩

instance : IsTrans (ℝ × ℝ × ℝ) weightDescRel := ⟨fun _ _ _ h1 h2 => le_trans h2 h1⟩

/-- Sorting of one branch's component triples by descending weight. -/
def sortBranch (mu phi w : List ℝ) : List (ℝ × ℝ × ℝ) :=
  List.insertionSort weightDescRel (w.zip (mu.zip phi))

/-- Effect of `get_sorted_params_dict` (lines 276-287): both branches'
triples are independently sorted by descending weight and scattered back
into the six fields. -/
def sortParamsFull (p : FSDParams) : FSDParams where
  mu_lo := (sortBranch p.mu_lo p.phi_lo p.w_lo).map (fun t => t.2.1)
  phi_lo := (sortBranch p.mu_lo p.phi_lo p.w_lo).map (fun t => t.2.2)
  w_lo := (sortBranch p.mu_lo p.phi_lo p.w_lo).map (fun t => t.1)
  mu_hi := (sortBranch p.mu_hi p.phi_hi p.w_hi).map (fun t => t.2.1)
  phi_hi := (sortBranch p.mu_hi p.phi_hi p.w_hi).map (fun t => t.2.2)
  w_hi := (sortBranch p.mu_hi p.phi_hi p.w_hi).map (fun t => t.1)

/-- Canonicalization utility of the full model
(`FSDModelGPLVM.get_sorted_fsd_xi`, lines 289-295): decode, sort both
branches, re-encode. -/
def getSortedFsdXiFull (nLo nHi : ℕ) (xi : List ℝ) : Option (List ℝ) :=
  (decodeFull nLo nHi none xi).map (fun p => encodeFull nLo nHi (sortParamsFull p))

/-- Hi-branch-only sorting used by the restricted model's
`get_sorted_fsd_xi` (lines 637-647): only the hi triples are sorted; the
lo fields are carried along but the restricted encoder never reads them. -/
def sortParamsRestricted (p : FSDParams) : FSDParams where
  mu_lo := p.mu_lo
  phi_lo := p.phi_lo
  w_lo := p.w_lo
  mu_hi := (sortBranch p.mu_hi p.phi_hi p.w_hi).map (fun t => t.2.1)
  phi_hi := (sortBranch p.mu_hi p.phi_hi p.w_hi).map (fun t => t.2.2)
  w_hi := (sortBranch p.mu_hi p.phi_hi p.w_hi).map (fun t => t.1)

/-- Canonicalization utility of the restricted model
(`FSDModelGPLVMRestricted.get_sorted_fsd_xi`, lines 637-647), which calls
its decode with `parents_dict=None`. -/
def getSortedFsdXiRestricted (nHi : ℕ) (intercept slope : ℝ) (xi : List ℝ) :
    Option (List ℝ) :=
  (decodeRestricted nHi intercept slope false none xi).map
    (fun p => encodeRestricted nHi (sortParamsRestricted p))

lemma zip3_projections (w : List ℝ) :
    ∀ mu phi : List ℝ, w.length = mu.length → mu.length = phi.length →
      ((w.zip (mu.zip phi)).map (fun t => t.1) = w) ∧
      ((w.zip (mu.zip phi)).map (fun t => t.2.1) = mu) ∧
      ((w.zip (mu.zip phi)).map (fun t => t.2.2) = phi) := by
  induction w with
  | nil =>
    intro mu phi h1 h2
    have hmu : mu = [] := List.eq_nil_of_length_eq_zero h1.symm
    subst hmu
    have hphi : phi = [] := List.eq_nil_of_length_eq_zero h2.symm
    subst hphi
    exact ⟨rfl, rfl, rfl⟩
  | cons a wt ih =>
    intro mu phi h1 h2
    cases mu with
    | nil => simp at h1
    | cons m mt =>
      cases phi with
      | nil => simp at h2
      | cons f ft =>
        simp only [List.zip_cons_cons, List.map_cons]
        obtain ⟨e1, e2, e3⟩ := ih mt ft (by simpa using h1) (by simpa using h2)
        exact ⟨by rw [e1], by rw [e2], by rw [e3]⟩

lemma triples_zip_eq (s : List (ℝ × ℝ × ℝ)) :
    (s.map (fun t => t.1)).zip ((s.map (fun t => t.2.1)).zip (s.map (fun t => t.2.2)))
      = s := by
  induction s with
  | nil => rfl
  | cons a tl ih => simp [ih]

lemma sortBranch_sorted (mu phi w : List ℝ) :
    (sortBranch mu phi w).Pairwise weightDescRel :=
  List.sorted_insertionSort weightDescRel _

lemma sortBranch_of_sorted (s : List (ℝ × ℝ × ℝ)) (hs : s.Pairwise weightDescRel) :
    sortBranch (s.map (fun t => t.2.1)) (s.map (fun t => t.2.2))
      (s.map (fun t => t.1)) = s := by
  rw [sortBranch, triples_zip_eq]
  exact List.Sorted.insertionSort_eq hs

/-- Sorting a branch preserves its validity: the sorted projections are a
permutation of the original fields. -/
lemma sortBranch_valid (n : ℕ) (mu phi w : List ℝ) (hb : ValidBranch n mu phi w) :
    ValidBranch n ((sortBranch mu phi w).map (fun t => t.2.1))
      ((sortBranch mu phi w).map (fun t => t.2.2))
      ((sortBranch mu phi w).map (fun t => t.1)) := by
  have hperm : (sortBranch mu phi w).Perm (w.zip (mu.zip phi)) :=
    List.perm_insertionSort _ _
  have hlenzip : (w.zip (mu.zip phi)).length = n := by
    simp [List.length_zip, hb.len_mu, hb.len_phi, hb.len_w]
  have hlen : (sortBranch mu phi w).length = n := by
    rw [hperm.length_eq, hlenzip]
  obtain ⟨pw, pmu, pphi⟩ := zip3_projections w mu phi
    (by rw [hb.len_w, hb.len_mu]) (by rw [hb.len_mu, hb.len_phi])
  have hmemdecomp : ∀ t ∈ sortBranch mu phi w, t.1 ∈ w ∧ t.2.1 ∈ mu ∧ t.2.2 ∈ phi := by
    intro t ht
    have hzz := hperm.subset ht
    rcases t with ⟨tw, tm, tp⟩
    obtain ⟨h1, h2⟩ := List.of_mem_zip hzz
    obtain ⟨h3, h4⟩ := List.of_mem_zip h2
    exact ⟨h1, h3, h4⟩
  exact
    { len_mu := by rw [List.length_map, hlen]
      len_phi := by rw [List.length_map, hlen]
      len_w := by rw [List.length_map, hlen]
      pos_mu := by
        intro x hx
        obtain ⟨t, ht, rfl⟩ := List.mem_map.mp hx
        exact hb.pos_mu _ (hmemdecomp t ht).2.1
      pos_phi := by
        intro x hx
        obtain ⟨t, ht, rfl⟩ := List.mem_map.mp hx
        exact hb.pos_phi _ (hmemdecomp t ht).2.2
      pos_w := by
        intro x hx
        obtain ⟨t, ht, rfl⟩ := List.mem_map.mp hx
        exact hb.pos_w _ (hmemdecomp t ht).1
      sum_w := by
        rw [(hperm.map (fun t : ℝ × ℝ × ℝ => t.1)).sum_eq, pw, hb.sum_w] }

lemma sortBranch_w_pairwise (mu phi w : List ℝ) :
    ((sortBranch mu phi w).map (fun t => t.1)).Pairwise (fun a b => b ≤ a) :=
  (sortBranch_sorted mu phi w).map (fun t : ℝ × ℝ × ℝ => t.1) (fun _ _ h => h)

/-- Idempotence of the parameter sort: the fields of an already-sorted
MixtureParams are projections of a sorted triple list, and the stable sort
leaves them in place. -/
lemma sortParamsFull_idem (p : FSDParams) :
    sortParamsFull (sortParamsFull p) = sortParamsFull p := by
  have hlo := sortBranch_of_sorted (sortBranch p.mu_lo p.phi_lo p.w_lo)
    (sortBranch_sorted p.mu_lo p.phi_lo p.w_lo)
  have hhi := sortBranch_of_sorted (sortBranch p.mu_hi p.phi_hi p.w_hi)
    (sortBranch_sorted p.mu_hi p.phi_hi p.w_hi)
  apply FSDParams.ext <;> simp only [sortParamsFull] <;>
    first
      | rw [hlo]
      | rw [hhi]

lemma decodeRestrictedBody_validHi (nHi : ℕ) (hHi : 1 ≤ nHi) (i s : ℝ)
    (detach : Bool) (pd : Option ParentsDict) (xi : List ℝ)
    (hx : xi.length = fsdXiDimRestricted nHi) :
    ValidBranch nHi (decodeRestrictedBody nHi i s detach pd xi).mu_hi
      (decodeRestrictedBody nHi i s detach pd xi).phi_hi
      (decodeRestrictedBody nHi i s detach pd xi).w_hi := by
  have hdim : xi.length = 3 * nHi - 1 := hx
  have hW := decodeW_valid nHi hHi ((xi.drop nHi).drop nHi)
    (by simp only [List.length_drop]; omega)
  exact
    { len_mu := by
        simp only [decodeRestrictedBody, List.length_map, List.length_take]
        omega
      len_phi := by
        simp only [decodeRestrictedBody, List.length_map, List.length_take,
          List.length_drop]
        omega
      len_w := hW.1
      pos_mu := pos_map_exp _
      pos_phi := pos_map_exp _
      pos_w := hW.2.1
      sum_w := hW.2.2 }

lemma encodeRestricted_congr_hi (nHi : ℕ) (p q : FSDParams)
    (h1 : p.mu_hi = q.mu_hi) (h2 : p.phi_hi = q.phi_hi) (h3 : p.w_hi = q.w_hi) :
    encodeRestricted nHi p = encodeRestricted nHi q := by
  rw [encodeRestricted, encodeRestricted, h1, h2, h3]

/-- C4: the canonicalization utility `get_sorted_fsd_xi` is idempotent on
every input of the correct dimension, and the decoded weights of its
output are non-increasing across component index within each branch — for
both the full and the restricted model. -/
theorem fsd_c4_sort_idempotent (nLo nHi : ℕ) (hLo : 1 ≤ nLo) (hHi : 1 ≤ nHi)
    (i s : ℝ) (xi xi2 : List ℝ)
    (hx : xi.length = fsdXiDimFull nLo nHi)
    (hx2 : xi2.length = fsdXiDimRestricted nHi) :
    (∃ y, getSortedFsdXiFull nLo nHi xi = some y ∧
       getSortedFsdXiFull nLo nHi y = some y ∧
       ∃ q, decodeFull nLo nHi none y = some q ∧
         q.w_lo.Pairwise (fun a b => b ≤ a) ∧
         q.w_hi.Pairwise (fun a b => b ≤ a)) ∧
    (∃ y2, getSortedFsdXiRestricted nHi i s xi2 = some y2 ∧
       getSortedFsdXiRestricted nHi i s y2 = some y2 ∧
       ∃ q2, decodeRestricted nHi i s false none y2 = some q2 ∧
         q2.w_lo.Pairwise (fun a b => b ≤ a) ∧
         q2.w_hi.Pairwise (fun a b => b ≤ a)) := by
  constructor
  · have hpvalid := decodeFullBody_valid nLo nHi hLo hHi xi hx
    have hqvalid : ValidParams nLo nHi (sortParamsFull (decodeFullBody nLo nHi xi)) :=
      ⟨sortBranch_valid nLo _ _ _ hpvalid.1, sortBranch_valid nHi _ _ _ hpvalid.2⟩
    refine ⟨encodeFull nLo nHi (sortParamsFull (decodeFullBody nLo nHi xi)),
      ?_, ?_, sortParamsFull (decodeFullBody nLo nHi xi),
      decodeFull_encodeFull nLo nHi hLo hHi none _ hqvalid, ?_, ?_⟩
    · rw [getSortedFsdXiFull, decodeFull, if_pos hx, Option.map_some']
    · rw [getSortedFsdXiFull, decodeFull_encodeFull nLo nHi hLo hHi none _ hqvalid,
        Option.map_some', sortParamsFull_idem]
    · exact sortBranch_w_pairwise _ _ _
    · exact sortBranch_w_pairwise _ _ _
  · have hbHi := decodeRestrictedBody_validHi nHi hHi i s false none xi2 hx2
    have hq2valid : ValidBranch nHi
        (sortParamsRestricted (decodeRestrictedBody nHi i s false none xi2)).mu_hi
        (sortParamsRestricted (decodeRestrictedBody nHi i s false none xi2)).phi_hi
        (sortParamsRestricted (decodeRestrictedBody nHi i s false none xi2)).w_hi :=
      sortBranch_valid nHi _ _ _ hbHi
    have hdec2 := decodeRestricted_encodeRestricted nHi hHi i s none
      (sortParamsRestricted (decodeRestrictedBody nHi i s false none xi2)) hq2valid
    refine ⟨encodeRestricted nHi
        (sortParamsRestricted (decodeRestrictedBody nHi i s false none xi2)),
      ?_, ?_, _, hdec2, ?_, ?_⟩
    · rw [getSortedFsdXiRestricted, decodeRestricted, if_pos hx2, Option.map_some']
    · rw [getSortedFsdXiRestricted, hdec2, Option.map_some']
      congr 1
      apply encodeRestricted_congr_hi <;>
        simp only [sortParamsRestricted] <;>
        rw [sortBranch_of_sorted (sortBranch _ _ _) (sortBranch_sorted _ _ _)]
    · exact List.pairwise_singleton _ _
    · exact sortBranch_w_pairwise _ _ _

/-- Configuration fields of `generate_fsd_init_params` (read from
`init_params_dict` at construction, lines 102-113). -/
structure FSDInitConfig where
  nLo : ℕ
  nHi : ℕ
  minMuLo : ℝ
  minMuHi : ℝ
  maxPhiLo : ℝ
  maxPhiHi : ℝ
  muDecay : ℝ
  wDecay : ℝ
  muLoToMuHiRatio : ℝ

/-- Geometric schedule `np.power([d], np.arange(n))`. -/
def geomWeights (d : ℝ) (n : ℕ) : List ℝ := (List.range n).map (fun k => d ^ k)

/-- Normalization `w / np.sum(w)`. -/
def normalizeSum (l : List ℝ) : List ℝ := l.map (fun a => a / l.sum)

/-- Closed-form starting MixtureParams
(`FSDModelGPLVM.generate_fsd_init_params`, lines 389-404): geometric decay
of means floored at configured minima, constant dispersions (hi capped at
a fraction of the configured maximum, lo at 1), geometric weights
re-normalized to sum to 1. -/
def generateFsdInitParams (cfg : FSDInitConfig) (muHiGuess phiHiGuess : ℝ) :
    FSDParams where
  mu_lo := (List.range cfg.nLo).map
    (fun k => max (cfg.muLoToMuHiRatio * muHiGuess * cfg.muDecay ^ k) (1.1 * cfg.minMuLo))
  phi_lo := List.replicate cfg.nLo 1
  w_lo := normalizeSum (geomWeights cfg.wDecay cfg.nLo)
  mu_hi := (List.range cfg.nHi).map
    (fun k => max (muHiGuess * cfg.muDecay ^ k) (1.1 * cfg.minMuHi))
  phi_hi := List.replicate cfg.nHi (min phiHiGuess (0.9 * cfg.maxPhiHi))
  w_hi := normalizeSum (geomWeights cfg.wDecay cfg.nHi)

lemma sum_map_div (l : List ℝ) (c : ℝ) :
    (l.map (fun a => a / c)).sum = l.sum / c := by
  induction l with
  | nil => simp
  | cons x xs ih => simp [ih, add_div]

lemma geomWeights_sum_pos (d : ℝ) (n : ℕ) (hd : 0 < d) (hn : 1 ≤ n) :
    0 < (geomWeights d n).sum := by
  apply List.sum_pos
  · intro a ha
    obtain ⟨k, _, rfl⟩ := List.mem_map.mp ha
    exact pow_pos hd k
  · have : (geomWeights d n).length = n := by simp [geomWeights]
    intro hcon
    rw [hcon] at this
    simp at this
    omega

lemma normalizeSum_sum (l : List ℝ) (h : l.sum ≠ 0) : (normalizeSum l).sum = 1 := by
  rw [normalizeSum, sum_map_div, div_self h]

lemma geomWeights_strict_anti (d : ℝ) (n : ℕ) (hd : 0 < d) (hlt : d < 1) :
    (geomWeights d n).Pairwise (fun a b => b < a) :=
  (List.pairwise_lt_range n).map (fun k => d ^ k)
    (fun _ _ h => pow_lt_pow_right_of_lt_one₀ hd hlt h)

/-- C9: for every pair of scalar guesses, the weight vectors of
`generate_fsd_init_params` each sum to 1 after normalization whenever the
decay constant is positive, and are strictly decreasing across component
index whenever it lies in (0, 1). -/
theorem fsd_c9_init_weights (cfg : FSDInitConfig) (muHiGuess phiHiGuess : ℝ)
    (hd : 0 < cfg.wDecay) (hLo : 1 ≤ cfg.nLo) (hHi : 1 ≤ cfg.nHi) :
    (generateFsdInitParams cfg muHiGuess phiHiGuess).w_lo.sum = 1 ∧
    (generateFsdInitParams cfg muHiGuess phiHiGuess).w_hi.sum = 1 ∧
    (cfg.wDecay < 1 →
      (generateFsdInitParams cfg muHiGuess phiHiGuess).w_lo.Pairwise
        (fun a b => b < a) ∧
      (generateFsdInitParams cfg muHiGuess phiHiGuess).w_hi.Pairwise
        (fun a b => b < a)) := by
  have hsLo := geomWeights_sum_pos cfg.wDecay cfg.nLo hd hLo
  have hsHi := geomWeights_sum_pos cfg.wDecay cfg.nHi hd hHi
  refine ⟨normalizeSum_sum _ (ne_of_gt hsLo), normalizeSum_sum _ (ne_of_gt hsHi), ?_⟩
  intro hlt
  constructor
  · exact (geomWeights_strict_anti cfg.wDecay cfg.nLo hd hlt).map
      (fun a => a / (geomWeights cfg.wDecay cfg.nLo).sum)
      (fun _ _ h => by exact div_lt_div_of_pos_right h hsLo)
  · exact (geomWeights_strict_anti cfg.wDecay cfg.nHi hd hlt).map
      (fun a => a / (geomWeights cfg.wDecay cfg.nHi).sum)
      (fun _ _ h => by exact div_lt_div_of_pos_right h hsHi)

/-- Lookup step of the `SortByComponentWeights` intermediates cache
(`_intermediates_cache`): Python dict containment keyed on the sorted
output. -/
def cacheFind {α : Type} [DecidableEq α] (cache : List (α × α)) (y : α) :
    Option (α × α) :=
  cache.find? (fun e => decide (e.1 = y))

/-- Registration step `_add_intermediate_to_cache` (lines 76-79): a key
collision is a fatal assertion, otherwise the pair `(y, x)` is stored. -/
def addIntermediateToCache {α : Type} [DecidableEq α] (cache : List (α × α))
    (x y : α) : Except String (List (α × α)) :=
  match cacheFind cache y with
  | some _ => Except.error "key collision in add intermediate to cache"
  | none => Except.ok ((y, x) :: cache)

/-- Forward transform `_call` (lines 63-66): compute the sorted output,
register the pre-sort input under it, return the sorted output together
with the updated cache state. -/
def transformCall {α : Type} [DecidableEq α] (sortFn : α → α)
    (cache : List (α × α)) (x : α) : Except String (α × List (α × α)) :=
  match addIntermediateToCache cache x (sortFn x) with
  | Except.ok cache2 => Except.ok (sortFn x, cache2)
  | Except.error e => Except.error e

/-- Inverse transform `_inverse` (lines 68-74): a hit pops the cached
pre-sort input; a miss is a fatal `KeyError`. -/
def transformInverse {α : Type} [DecidableEq α] (cache : List (α × α))
    (y : α) : Except String (α × List (α × α)) :=
  match cacheFind cache y with
  | some e =>
    Except.ok (e.2, cache.eraseP (fun e2 => decide (e2.1 = y)))
  | none =>
    Except.error "SortByComponentWeights expected to find key in intermediates cache but did not"

/-- C2: the cache contract of a single `SortByComponentWeights` instance,
whose state is `cache` (a fresh instance has `cache = []`).  A forward
call on `x` whose output is not yet a cached key registers the pair and
returns the sorted output; the matching inverse call returns the original
pre-sort input `x` exactly and removes the cache entry, leaving the prior
state; after the single forward call's entry has been popped the second
inverse call for the same output fails fatally; any inverse call whose
argument was never produced by a prior forward call (no cached key
matches) fails fatally; and registering the same forward output twice —
a second forward call whose output collides with the cached key — fails
fatally. -/
theorem fsd_c2_cache_contract {α : Type} [DecidableEq α] (sortFn : α → α)
    (x : α) (cache : List (α × α)) :
    ((∀ e ∈ cache, e.1 ≠ sortFn x) →
      transformCall sortFn cache x
        = Except.ok (sortFn x, (sortFn x, x) :: cache)) ∧
    (transformInverse ((sortFn x, x) :: cache) (sortFn x)
      = Except.ok (x, cache)) ∧
    (transformInverse ([] : List (α × α)) (sortFn x)
      = Except.error
        "SortByComponentWeights expected to find key in intermediates cache but did not") ∧
    (∀ y : α, (∀ e ∈ cache, e.1 ≠ y) →
      transformInverse cache y
        = Except.error
          "SortByComponentWeights expected to find key in intermediates cache but did not") ∧
    (∀ x2 : α, sortFn x2 = sortFn x →
      transformCall sortFn ((sortFn x, x) :: cache) x2
        = Except.error "key collision in add intermediate to cache") := by
  refine ⟨?_, ?_, rfl, ?_, ?_⟩
  · intro h
    have hfind : cacheFind cache (sortFn x) = none := by
      rw [cacheFind, List.find?_eq_none]
      intro e he
      simpa using h e he
    rw [transformCall, addIntermediateToCache, hfind]
  · have hfind : cacheFind ((sortFn x, x) :: cache) (sortFn x)
        = some (sortFn x, x) := by
      simp [cacheFind, List.find?_cons_of_pos]
    rw [transformInverse, hfind]
    simp [List.eraseP_cons_of_pos]
  · intro y h
    have hfind : cacheFind cache y = none := by
      rw [cacheFind, List.find?_eq_none]
      intro e he
      simpa using h e he
    rw [transformInverse, hfind]
  · intro x2 h2
    have hfind : cacheFind ((sortFn x, x) :: cache) (sortFn x2)
        = some (sortFn x, x) := by
      simp [cacheFind, List.find?_cons_of_pos, h2]
    rw [transformCall, addIntermediateToCache, hfind]

/-- Concrete valid MixtureParams for single-component branches. -/
def witParams : FSDParams :=
  { mu_lo := [1], phi_lo := [1], w_lo := [1], mu_hi := [1], phi_hi := [1], w_hi := [1] }

lemma witParams_valid : ValidParams 1 1 witParams :=
  ⟨{ len_mu := rfl, len_phi := rfl, len_w := rfl
     pos_mu := mem_singleton_pos 1 (by norm_num)
     pos_phi := mem_singleton_pos 1 (by norm_num)
     pos_w := mem_singleton_pos 1 (by norm_num)
     sum_w := by simp [witParams] },
   { len_mu := rfl, len_phi := rfl, len_w := rfl
     pos_mu := mem_singleton_pos 1 (by norm_num)
     pos_phi := mem_singleton_pos 1 (by norm_num)
     pos_w := mem_singleton_pos 1 (by norm_num)
     sum_w := by simp [witParams] }⟩

theorem fsd_c1_roundtrip_witness :
    ValidParams 1 1 witParams ∧
    decodeFull 1 1 none (encodeFull 1 1 witParams) = some witParams :=
  ⟨witParams_valid,
   (fsd_c1_roundtrip 1 1 le_rfl le_rfl none 0 1 witParams witParams_valid).1⟩

theorem fsd_c2_cache_contract_witness :
    (transformCall (fun n : ℕ => n + 1) [] 0 = Except.ok (1, [(1, 0)])) ∧
    (transformInverse [(1, 0)] 1 = Except.ok (0, ([] : List (ℕ × ℕ)))) ∧
    (transformInverse ([] : List (ℕ × ℕ)) 1
      = Except.error
        "SortByComponentWeights expected to find key in intermediates cache but did not") ∧
    (transformInverse [(2, 5)] 1
      = Except.error
        "SortByComponentWeights expected to find key in intermediates cache but did not") ∧
    (transformCall (fun n : ℕ => n + 1) [(1, 0)] 0
      = Except.error "key collision in add intermediate to cache") := by
  have h := fsd_c2_cache_contract (fun n : ℕ => n + 1) 0 []
  have h2 := fsd_c2_cache_contract (fun n : ℕ => n + 1) 0 [(2, 5)]
  exact ⟨h.1 (by simp), h.2.1, h.2.2.1, h2.2.2.2.1 1 (by simp), h.2.2.2.2 0 rfl⟩

theorem fsd_c3_restricted_link_witness :
    (0 : ℝ) < 1 ∧
    (∃ q, decodeRestricted 1 0 1 false none [Real.log 1, 0] = some q ∧
      q.mu_hi = [1] ∧ q.w_hi = [1] ∧ q.mu_lo = [Real.exp (0 + 1 * Real.log 1)]) :=
  ⟨one_pos, (fsd_c3_restricted_link 0 1 1 0 one_pos).1⟩

theorem fsd_c4_sort_idempotent_witness :
    ([0, 0, 0, 0] : List ℝ).length = fsdXiDimFull 1 1 ∧
    (∃ y, getSortedFsdXiFull 1 1 [0, 0, 0, 0] = some y ∧
      getSortedFsdXiFull 1 1 y = some y ∧
      ∃ q, decodeFull 1 1 none y = some q ∧
        q.w_lo.Pairwise (fun a b => b ≤ a) ∧
        q.w_hi.Pairwise (fun a b => b ≤ a)) :=
  ⟨rfl,
   (fsd_c4_sort_idempotent 1 1 le_rfl le_rfl 0 0 [0, 0, 0, 0] [0, 0] rfl rfl).1⟩

theorem fsd_c5_decode_simplex_witness :
    ([0, 0, 0, 0] : List ℝ).length = fsdXiDimFull 1 1 ∧
    (∃ p, decodeFull 1 1 none [0, 0, 0, 0] = some p ∧
      (∀ x ∈ p.w_lo, 0 ≤ x) ∧ p.w_lo.sum = 1 ∧
      (∀ x ∈ p.w_hi, 0 ≤ x) ∧ p.w_hi.sum = 1 ∧
      (∀ x ∈ p.mu_lo, 0 < x) ∧ (∀ x ∈ p.phi_lo, 0 < x) ∧
      (∀ x ∈ p.mu_hi, 0 < x) ∧ (∀ x ∈ p.phi_hi, 0 < x)) :=
  ⟨rfl, fsd_c5_decode_simplex 1 1 le_rfl le_rfl none [0, 0, 0, 0] rfl⟩

/-- Concrete valid MixtureParams with 2 lo and 3 hi components, matching
the worked example n_hi=3, n_lo=2 of the spec. -/
def dimParams : FSDParams :=
  { mu_lo := [1, 1], phi_lo := [1, 1], w_lo := [1 / 2, 1 / 2]
    mu_hi := [1, 1, 1], phi_hi := [1, 1, 1], w_hi := [1 / 2, 1 / 4, 1 / 4] }

lemma dimParams_valid : ValidParams 2 3 dimParams := by
  refine ⟨⟨rfl, rfl, rfl, ?_, ?_, ?_, ?_⟩, ⟨rfl, rfl, rfl, ?_, ?_, ?_, ?_⟩⟩
  · intro x hx
    fin_cases hx <;> norm_num
  · intro x hx
    fin_cases hx <;> norm_num
  · intro x hx
    fin_cases hx <;> norm_num
  · norm_num [dimParams, List.sum_cons, List.sum_nil]
  · intro x hx
    fin_cases hx <;> norm_num
  · intro x hx
    fin_cases hx <;> norm_num
  · intro x hx
    fin_cases hx <;> norm_num
  · norm_num [dimParams, List.sum_cons, List.sum_nil]

theorem fsd_c7_encode_dim_witness :
    ValidParams 2 3 dimParams ∧
    (encodeFull 2 3 dimParams).length = 13 ∧
    (encodeRestricted 3 dimParams).length = 8 := by
  have h := fsd_c7_encode_dim 2 3 dimParams dimParams_valid
  exact ⟨dimParams_valid, h.1, h.2⟩

theorem fsd_c8_decode_length_check_witness :
    decodeFull 1 1 none ([0] : List ℝ) = none ∧
    (∃ p, decodeFull 1 1 none ([0, 0, 0, 0] : List ℝ) = some p) ∧
    decodeRestricted 1 0 0 false none ([0] : List ℝ) = none ∧
    (∃ p, decodeRestricted 1 0 0 false none ([0, 0] : List ℝ) = some p) :=
  ⟨(fsd_c8_decode_length_check 1 1 0 0 false none [0]).1 (by decide),
   (fsd_c8_decode_length_check 1 1 0 0 false none [0, 0, 0, 0]).2.1 rfl,
   (fsd_c8_decode_length_check 1 1 0 0 false none [0]).2.2.1 (by decide),
   (fsd_c8_decode_length_check 1 1 0 0 false none [0, 0]).2.2.2 rfl⟩

/-- Concrete initialization configuration with decay 1/2 and two
components per branch. -/
def witCfg : FSDInitConfig :=
  { nLo := 2, nHi := 2, minMuLo := 1, minMuHi := 1, maxPhiLo := 1, maxPhiHi := 1
    muDecay := 1 / 2, wDecay := 1 / 2, muLoToMuHiRatio := 1 }

theorem fsd_c9_init_weights_witness :
    (0 : ℝ) < witCfg.wDecay ∧ witCfg.wDecay < 1 ∧
    (generateFsdInitParams witCfg 1 1).w_lo.sum = 1 ∧
    (generateFsdInitParams witCfg 1 1).w_hi.sum = 1 ∧
    (generateFsdInitParams witCfg 1 1).w_lo.Pairwise (fun a b => b < a) := by
  have h := fsd_c9_init_weights witCfg 1 1 (by norm_num [witCfg])
    (by norm_num [witCfg]) (by norm_num [witCfg])
  exact ⟨by norm_num [witCfg], by norm_num [witCfg], h.1, h.2.1,
    (h.2.2 (by norm_num [witCfg])).1⟩

end FSD
